import Mathlib

/-!
Verification development for the Delaware MMP bids scraper
(src/scrape_delaware_bids.js).  The JavaScript functions that the claims
concern are embedded shallowly: strings are lists of characters, DOM and
network interactions are abstracted as explicit state trajectories and
oracles, and the worker pool is a small-step transition relation over an
explicit pool state.
-/

namespace DeBids

/-- Strings are modelled as lists of characters. -/
abbrev Str := List Char

/-- Helper turning a Lean string literal into the character-list model. -/
def strL (s : String) : Str := s.data

/-- Whitespace test matching the JavaScript regular expression class used in
`normalize` (space, tab, newline, carriage return, vertical tab, form feed,
no-break space). -/
def isWs (c : Char) : Bool :=
  c = ' ' || c = '\t' || c = '\n' || c = '\r' || c = '\x0b' || c = '\x0c' || c = ' '

/-- Embedding of the `replace` step of `normalize`: every maximal run of
whitespace collapses to a single space. -/
def collapseWs : Str → Str
  | [] => []
  | [c] => [if isWs c then ' ' else c]
  | c₁ :: c₂ :: cs =>
    if isWs c₁ && isWs c₂ then collapseWs (c₂ :: cs)
    else (if isWs c₁ then ' ' else c₁) :: collapseWs (c₂ :: cs)

/-- Embedding of the JavaScript `trim`: leading and trailing whitespace is
removed. -/
def trimWs (s : Str) : Str :=
  ((s.dropWhile isWs).reverse.dropWhile isWs).reverse

/-- Embedding of `normalize` from src/scrape_delaware_bids.js lines 33-35:
collapse whitespace runs to single spaces, then trim. -/
def normalize (s : Str) : Str := trimWs (collapseWs s)

/-- Embedding of the `lower` helper inside `scrapePageRows` (line 169):
normalize, then lowercase. -/
def lower (s : Str) : Str := (normalize s).map Char.toLower

/-- Containment test for `String.prototype.includes`: the second list occurs
contiguously inside the first.  `startsWithL h a` checks that `h` begins
with `a`. -/
def startsWithL : Str → Str → Bool
  | _, [] => true
  | [], _ :: _ => false
  | c :: cs, d :: ds => c = d && startsWithL cs ds

/-- Embedding of the JavaScript `includes` substring test. -/
def containsSub : Str → Str → Bool
  | [], a => a.isEmpty
  | h :: hs, a => startsWithL (h :: hs) a || containsSub hs a

/-- One scraped listing record, with the exact field set produced by
`scrapePageRows` (lines 210-222).  `detail_error` models the
`_detail_error` key that `scrapeDetailsViaApi` adds on failure; `none`
means the key is absent. -/
structure BidRecord where
  id : Str
  contract_number : Str
  contract_title : Str
  open_date : Str
  deadline_date : Str
  agency_code : Str
  unspc : Str
  contact_email : Str
  files : List (Str × Str)
  bookmarkable_link_url : Str
  agency_full : Str
  detail_error : Option Str
deriving DecidableEq

/-- Convenience constructor used only for concrete test inputs. -/
def mkRec (cn title link : String) : BidRecord :=
  { id := []
    contract_number := cn.data
    contract_title := title.data
    open_date := []
    deadline_date := []
    agency_code := []
    unspc := []
    contact_email := []
    files := []
    bookmarkable_link_url := link.data
    agency_full := []
    detail_error := none }

/-- Placeholder record used for out-of-range list reads in the pool model. -/
def dfltRec : BidRecord := mkRec "" "" ""

/-- Embedding of the JavaScript string `||` operator: the empty string is
falsy, so it falls through to the second operand. -/
def jsOr (a b : Str) : Str := if a = [] then b else a

/-- JSON string escaping as performed by `JSON.stringify` on the characters
that can occur in scraped text. -/
def jsonEscape : Str → Str
  | [] => []
  | c :: cs =>
    (if c = '"' then ['\\', '"']
     else if c = '\\' then ['\\', '\\']
     else if c = '\n' then ['\\', 'n']
     else if c = '\t' then ['\\', 't']
     else if c = '\r' then ['\\', 'r']
     else [c]) ++ jsonEscape cs

/-- Quoted JSON string literal. -/
def jsonStr (s : Str) : Str := '"' :: (jsonEscape s ++ ['"'])

/-- JSON object member `"name":value`. -/
def jsonField (name : String) (v : Str) : Str := jsonStr name.data ++ ':' :: v

/-- Comma-joined concatenation of JSON fragments. -/
def joinComma : List Str → Str
  | [] => []
  | [x] => x
  | x :: y :: rest => x ++ ',' :: joinComma (y :: rest)

/-- JSON serialization of one file entry, matching the object shape
`\x7btitle, Url\x7d` built in `scrapeDetailsViaApi` (line 363). -/
def jsonFileObj (f : Str × Str) : Str :=
  '\x7b' :: (jsonField "title" (jsonStr f.1) ++ ',' :: jsonField "Url" (jsonStr f.2)) ++ ['\x7d']

/-- Embedding of `JSON.stringify(r)` on a listing record, with the keys in
the insertion order of the object literal built by `scrapePageRows`; the
`_detail_error` key appears only when present. -/
def jsonStringify (r : BidRecord) : Str :=
  '\x7b' ::
    (joinComma
      [jsonField "id" (jsonStr r.id),
       jsonField "contract_number" (jsonStr r.contract_number),
       jsonField "contract_title" (jsonStr r.contract_title),
       jsonField "open_date" (jsonStr r.open_date),
       jsonField "deadline_date" (jsonStr r.deadline_date),
       jsonField "agency_code" (jsonStr r.agency_code),
       jsonField "unspc" (jsonStr r.unspc),
       jsonField "contact_email" (jsonStr r.contact_email),
       jsonField "files" ('[' :: joinComma (r.files.map jsonFileObj) ++ [']']),
       jsonField "bookmarkable_link_url" (jsonStr r.bookmarkable_link_url),
       jsonField "agency_full" (jsonStr r.agency_full)] ++
     (match r.detail_error with
      | none => []
      | some e => ',' :: jsonField "_detail_error" (jsonStr e)) ++
     ['\x7d'])

/-- Identity key of the per-page dedup loop in `run` (lines 414-416):
`r.bookmarkable_link_url || r.contract_number || JSON.stringify(r)`. -/
def perPageKey (r : BidRecord) : Str :=
  jsOr r.bookmarkable_link_url (jsOr r.contract_number (jsonStringify r))

/-- Identity key of the final dedup pass in `run` (line 433):
`r.bookmarkable_link_url || r.contract_number`. -/
def finalKey (r : BidRecord) : Str :=
  jsOr r.bookmarkable_link_url r.contract_number

/-- Worker loop of `uniqBy` (lines 37-47): `seen` is the set of keys already
emitted; an element with a falsy (empty) key or an already seen key is
skipped. -/
def uniqByGo (keyFn : BidRecord → Str) : List BidRecord → List Str → List BidRecord
  | [], _ => []
  | x :: xs, seen =>
    if keyFn x = [] ∨ keyFn x ∈ seen then uniqByGo keyFn xs seen
    else x :: uniqByGo keyFn xs (keyFn x :: seen)

/-- Embedding of `uniqBy` from src/scrape_delaware_bids.js lines 37-47. -/
def uniqBy (arr : List BidRecord) (keyFn : BidRecord → Str) : List BidRecord :=
  uniqByGo keyFn arr []

/-- Embedding of `Array.prototype.findIndex`: index of the first element
satisfying the predicate, `-1` when there is none. -/
def jsFindIndex (p : α → Bool) : List α → Int
  | [] => -1
  | x :: xs =>
    if p x then 0
    else if jsFindIndex p xs = -1 then -1 else jsFindIndex p xs + 1

/-- Embedding of `findCol` from `scrapePageRows` (lines 177-178): the header
texts `ths` are already normalized and lowercased, and a column matches
when its text contains any alias. -/
def findCol (ths : List Str) (aliases : List Str) : Int :=
  jsFindIndex (fun h => aliases.any (fun a => containsSub h a)) ths

/-- Column mapping produced by `scrapePageRows` (lines 180-193): one
`findCol` result per logical field. -/
structure ColIdx where
  contract_number : Int
  contract_title : Int
  open_date : Int
  deadline_date : Int
  agency_code : Int
  unspc : Int
deriving DecidableEq

/-- Embedding of the `get` helper of `scrapePageRows` (line 204):
`colIdx[k] >= 0 ? tds[colIdx[k]] || "" : ""`; a negative or out-of-range
index yields the empty string. -/
def getCell (tds : List Str) (i : Int) : Str :=
  if 0 ≤ i then tds.getD i.toNat [] else []

/-- Predicate describing a resolved column index that actually lands on an
existing cell of the row. -/
def cellInBounds (tds : List Str) (i : Int) : Prop :=
  0 ≤ i ∧ i.toNat < tds.length

instance (tds : List Str) (i : Int) : Decidable (cellInBounds tds i) := by
  unfold cellInBounds; exact inferInstance

/-- Fixed URL template for the row detail link (line 220 of
`scrapePageRows`). -/
def bidDetailTemplate (id : Str) : Str := strL "/Bids/GetBidDetail?id=" ++ id

/-- Embedding of the record construction of `scrapePageRows`
(lines 199-223): each field reads its resolved column through `get`, and
`bookmarkable_link_url` is the template applied to the row id when the id
is non-empty, the empty string otherwise. -/
def buildRecord (c : ColIdx) (id : Str) (tds : List Str) : BidRecord :=
  { id := id
    contract_number := getCell tds c.contract_number
    contract_title := getCell tds c.contract_title
    open_date := getCell tds c.open_date
    deadline_date := getCell tds c.deadline_date
    agency_code := getCell tds c.agency_code
    unspc := getCell tds c.unspc
    contact_email := []
    files := []
    bookmarkable_link_url := if id = [] then [] else bidDetailTemplate id
    agency_full := []
    detail_error := none }

/-- View of the empty-string absence sentinel as an option, used to compare
the code field with the specification field. -/
def strToOption (s : Str) : Option Str := if s = [] then none else some s

/-- Modelled from the spec: the specification (section 4.2) states the
derived `detail_link` as the fixed URL template applied to the opaque row
identifier, and null when the identifier is empty. -/
def detailLinkSpec (id : Str) : Option Str :=
  if id = [] then none else some (bidDetailTemplate id)

/-- Observable page state read by `findAndClickNext`: presence and disabled
class of the `td#next_jqg1` control, attribute id and inner text of the
first `tr.jqgrow` row, and the value of the pager input when present. -/
structure PageState where
  nextPresent : Bool
  nextDisabled : Bool
  firstRow : Option (Str × Str)
  pgInput : Option Str
deriving DecidableEq

/-- Minimal JavaScript value model needed for the captured `before`
argument of the `waitForFunction` predicate: a string or `undefined`. -/
inductive JsVal where
  | undef : JsVal
  | vstr : Str → JsVal
deriving DecidableEq

/-- Property access on the captured value.  The predicate reads the names
`firstRowId`, `firstRowText` and `pageNum`; none of these is a property of
a string value, so the access yields `undefined`. -/
def jsGetField : JsVal → Str → JsVal
  | JsVal.undef, _ => JsVal.undef
  | JsVal.vstr _, _ => JsVal.undef

/-- Strict inequality `!==` between a string and an arbitrary value: a
string is never strictly equal to `undefined`. -/
def jsStrictNeqStr (s : Str) (v : JsVal) : Bool :=
  match v with
  | JsVal.undef => true
  | JsVal.vstr t => decide (s ≠ t)

/-- Embedding of the `waitForFunction` predicate of `findAndClickNext`
(lines 257-274), with `prev` the captured argument. -/
def waitPred (prev : JsVal) (st : PageState) : Bool :=
  let nowId := match st.firstRow with | some rc => rc.1 | none => []
  let nowText := match st.firstRow with | some rc => trimWs rc.2 | none => []
  let nowPage := match st.pgInput with | some v => trimWs v | none => []
  (decide (nowId ≠ []) && jsStrictNeqStr nowId (jsGetField prev (strL "firstRowId"))) ||
  (decide (nowText ≠ []) && jsStrictNeqStr nowText (jsGetField prev (strL "firstRowText"))) ||
  (decide (nowPage ≠ []) && jsStrictNeqStr nowPage (jsGetField prev (strL "pageNum")))

/-- Embedding of `findAndClickNext` (lines 228-277) over a page trajectory:
`traj 0` is the state before the click and `traj (t + 1)` the state at the
t-th observation after the click.  The function returns `false` when the
next control is absent or disabled; otherwise it clicks, captures `before`
as the first-row text observed after the click (a plain string), and polls
the wait predicate up to the timeout, propagating a timeout as an error. -/
def findAndClickNext (traj : Nat → PageState) (timeout : Nat) : Except Unit Bool :=
  let st0 := traj 0
  if !st0.nextPresent || st0.nextDisabled then Except.ok false
  else
    let before : JsVal :=
      JsVal.vstr (match (traj 1).firstRow with | some rc => trimWs rc.2 | none => [])
    match (List.range timeout).find? (fun k => waitPred before (traj (k + 1))) with
    | some _ => Except.ok true
    | none => Except.error ()

/-- Per-row body of the cross-page dedup loop of `run` (lines 414-423): the
key is computed on the scraped record, and the pushed copy carries the
joined `agency_full`. -/
def addRow (am : Str → Option Str) (st : List Str × List BidRecord) (r : BidRecord) :
    List Str × List BidRecord :=
  let key := perPageKey r
  if key ∈ st.1 then st
  else (key :: st.1, st.2 ++ [{ r with agency_full := (am r.agency_code).getD [] }])

/-- Folding the dedup loop over the records of one page. -/
def addRows (am : Str → Option Str) (seen : List Str) (acc : List BidRecord)
    (rows : List BidRecord) : List Str × List BidRecord :=
  rows.foldl (addRow am) (seen, acc)

/-- Per-record normalization of `run` (lines 402-411). -/
def normalizeRec (r : BidRecord) : BidRecord :=
  { r with
    contract_number := normalize r.contract_number
    contract_title := normalize r.contract_title
    open_date := normalize r.open_date
    deadline_date := normalize r.deadline_date
    agency_code := normalize r.agency_code
    unspc := normalize r.unspc
    bookmarkable_link_url := normalize r.bookmarkable_link_url }

/-- Embedding of the page loop of `run` (lines 395-430).  `scrapes p` is
the row list returned by `scrapePageRows` on iteration `p` and `nexts p`
the outcome of `findAndClickNext` there (`Except.error` models the
uncaught rejection on a wait timeout).  `fuel` counts the remaining
iterations of the `for` loop. -/
def walkGo (scrapes : Nat → List BidRecord) (nexts : Nat → Except Unit Bool)
    (am : Str → Option Str) (mi : Nat) :
    Nat → Nat → List Str → List BidRecord → Except Unit (List BidRecord)
  | 0, _, _, acc => Except.ok acc
  | fuel + 1, p, seen, acc =>
    if mi ≤ (addRows am seen acc ((scrapes p).map normalizeRec)).2.length then
      Except.ok (addRows am seen acc ((scrapes p).map normalizeRec)).2
    else
      match nexts p with
      | Except.error e => Except.error e
      | Except.ok false => Except.ok (addRows am seen acc ((scrapes p).map normalizeRec)).2
      | Except.ok true =>
        walkGo scrapes nexts am mi fuel (p + 1)
          (addRows am seen acc ((scrapes p).map normalizeRec)).1
          (addRows am seen acc ((scrapes p).map normalizeRec)).2

/-- Embedding of the directory walk of `run` up to the final dedup pass
(lines 392-433): the page loop followed by `uniqBy` with the final key. -/
def walkRun (scrapes : Nat → List BidRecord) (nexts : Nat → Except Unit Bool)
    (am : Str → Option Str) (maxPages mi : Nat) : Except Unit (List BidRecord) :=
  Except.map (fun all => uniqBy all finalKey) (walkGo scrapes nexts am mi maxPages 1 [] [])

/-- Payload returned by the in-page evaluation of `scrapeDetailsViaApi`
(line 366): the extracted contact email and merged file list. -/
structure DetailData where
  contact_email : Str
  files : List (Str × Str)
deriving DecidableEq

/-- Embedding of `scrapeDetailsViaApi` (lines 279-373).  The in-page
evaluation with its two network fetches is the external
navigable-document capability and is abstracted as the `fetch` oracle; an
oracle error models the caught exception, whose message string lands in
the `_detail_error` key. -/
def scrapeDetailsViaApi (fetch : Str → Except Str DetailData) (base : BidRecord) : BidRecord :=
  if base.id = [] then base
  else
    match fetch base.id with
    | Except.ok d => { base with contact_email := d.contact_email, files := d.files }
    | Except.error msg => { base with detail_error := some msg }

/-- Status of one pool worker: between iterations, holding a claimed index
while its enrichment is awaited, or exited. -/
inductive WStatus where
  | idle : WStatus
  | working : Nat → WStatus
  | done : WStatus
deriving DecidableEq

/-- Shared state of the detail-enrichment pool of `run` (lines 436-449):
the shared cursor `idx`, the output array `out` (a slot per input record),
the worker statuses, and a ghost log of claimed indices. -/
structure PoolState where
  idx : Nat
  out : List (Option BidRecord)
  ws : List WStatus
  claims : List Nat
deriving DecidableEq

/-- Initial pool state: cursor at zero, empty output slots, all `C`
workers at the loop head. -/
def initPool (n C : Nat) : PoolState :=
  { idx := 0, out := List.replicate n none, ws := List.replicate C WStatus.idle, claims := [] }

/-- Small-step transition relation of the worker pool.  `claim` is the
synchronous `const i = idx++` under the `idx < all.length` guard, `finish`
is the completion of the awaited enrichment together with the synchronous
`out[i] = detailed` write, and `exit` is a worker observing the exhausted
cursor and leaving the loop.  Steps of distinct workers interleave
arbitrarily. -/
inductive PoolStep (all : List BidRecord) (f : BidRecord → BidRecord) :
    PoolState → PoolState → Prop where
  | claim (s : PoolState) (w : Nat) (hw : s.ws.getD w WStatus.done = WStatus.idle)
      (hwlt : w < s.ws.length) (hidx : s.idx < all.length) :
      PoolStep all f s
        { idx := s.idx + 1, out := s.out, ws := s.ws.set w (WStatus.working s.idx),
          claims := s.claims ++ [s.idx] }
  | finish (s : PoolState) (w i : Nat) (hw : s.ws.getD w WStatus.done = WStatus.working i)
      (hwlt : w < s.ws.length) :
      PoolStep all f s
        { idx := s.idx, out := s.out.set i (some (f (all.getD i dfltRec))),
          ws := s.ws.set w WStatus.idle, claims := s.claims }
  | exit (s : PoolState) (w : Nat) (hw : s.ws.getD w WStatus.done = WStatus.idle)
      (hwlt : w < s.ws.length) (hidx : all.length ≤ s.idx) :
      PoolStep all f s
        { idx := s.idx, out := s.out, ws := s.ws.set w WStatus.done, claims := s.claims }

/-- Reachability under arbitrary interleavings of pool steps. -/
def PoolReach (all : List BidRecord) (f : BidRecord → BidRecord) :
    PoolState → PoolState → Prop :=
  Relation.ReflTransGen (PoolStep all f)

/-- A pool state where every worker has exited the loop, the state in which
`Promise.all(workers)` resolves. -/
def Terminal (s : PoolState) : Prop :=
  ∀ w, w < s.ws.length → s.ws.getD w WStatus.done = WStatus.done

/-! ## Concrete sample data used by witnesses and counterexamples -/

/-- Sample record with contract number `A`. -/
def recX : BidRecord := mkRec "A" "Alpha" ""

/-- Second sample record sharing the contract number of `recX`. -/
def recX2 : BidRecord := mkRec "A" "Alpha Two" ""

/-- Sample record with contract number `B`. -/
def recY : BidRecord := mkRec "B" "Beta" ""

/-- Sample record with contract number `C`. -/
def recZ : BidRecord := mkRec "C" "Gamma" ""

/-- Sample record with empty link and empty contract number but a
non-empty title, so it survives the row filter yet has an empty final
dedup key. -/
def rT : BidRecord := mkRec "" "Roof Repair" ""

/-- Empty agency map. -/
def amNone : Str → Option Str := fun _ => none

/-! ## Helper lemmas -/

theorem getD_set_self {α : Type} (l : List α) (w : Nat) (v d : α) (h : w < l.length) :
    (l.set w v).getD w d = v := by
  induction l generalizing w with
  | nil => simp at h
  | cons x xs ih =>
    cases w with
    | zero => rfl
    | succ n =>
      simp only [List.set, List.getD_cons_succ]
      exact ih n (by simpa using h)

theorem getD_set_ne {α : Type} (l : List α) (w u : Nat) (v d : α) (h : w ≠ u) :
    (l.set w v).getD u d = l.getD u d := by
  induction l generalizing w u with
  | nil => rfl
  | cons x xs ih =>
    cases w with
    | zero =>
      cases u with
      | zero => exact absurd rfl h
      | succ m => rfl
    | succ n =>
      cases u with
      | zero => rfl
      | succ m =>
        simp only [List.set, List.getD_cons_succ]
        exact ih n m (by omega)

theorem getD_replicate_lt {α : Type} (a d : α) : ∀ (n i : Nat), i < n →
    (List.replicate n a).getD i d = a := by
  intro n
  induction n with
  | zero => intro i hi; omega
  | succ m ih =>
    intro i hi
    cases i with
    | zero => rfl
    | succ k =>
      simp only [List.replicate, List.getD_cons_succ]
      exact ih k (by omega)

theorem jsFindIndex_eq_neg_one {α : Type} {p : α → Bool} {l : List α}
    (h : ∀ x ∈ l, p x = false) : jsFindIndex p l = -1 := by
  induction l with
  | nil => rfl
  | cons x xs ih =>
    have hx : p x = false := h x (List.mem_cons_self x xs)
    have hr : jsFindIndex p xs = -1 := ih (fun y hy => h y (List.mem_cons_of_mem x hy))
    simp [jsFindIndex, hx, hr]

theorem jsFindIndex_first {α : Type} {p : α → Bool} (d : α) :
    ∀ (l : List α) (i : Nat), i < l.length → p (l.getD i d) = true →
      (∀ j, j < i → p (l.getD j d) = false) → jsFindIndex p l = (i : Int) := by
  intro l
  induction l with
  | nil => intro i hi _ _; simp at hi
  | cons x xs ih =>
    intro i hi hp hbefore
    cases i with
    | zero =>
      have hx : p x = true := by simpa using hp
      simp [jsFindIndex, hx]
    | succ n =>
      have hx : p x = false := by simpa using hbefore 0 (Nat.succ_pos n)
      have hr : jsFindIndex p xs = (n : Int) :=
        ih n (by simpa using hi) (by simpa using hp)
          (fun j hj => by simpa using hbefore (j + 1) (by omega))
      have hne : ¬ ((n : Int) = -1) := by omega
      simp only [jsFindIndex, hx, Bool.false_eq_true, if_false, hr, hne, if_neg]
      omega

theorem uniqByGo_subl (f : BidRecord → Str) :
    ∀ (l : List BidRecord) (seen : List Str), List.Sublist (uniqByGo f l seen) l := by
  intro l
  induction l with
  | nil => intro seen; simp [uniqByGo]
  | cons x xs ih =>
    intro seen
    by_cases hc : f x = [] ∨ f x ∈ seen
    · simp only [uniqByGo, if_pos hc]
      exact (ih seen).cons x
    · simp only [uniqByGo, if_neg hc]
      exact (ih _).cons₂ x

theorem uniqByGo_mem (f : BidRecord → Str) :
    ∀ (l : List BidRecord) (seen : List Str) (r : BidRecord),
      r ∈ uniqByGo f l seen → f r ≠ [] ∧ f r ∉ seen := by
  intro l
  induction l with
  | nil => intro seen r hr; simp [uniqByGo] at hr
  | cons x xs ih =>
    intro seen r hr
    by_cases hc : f x = [] ∨ f x ∈ seen
    · rw [uniqByGo, if_pos hc] at hr
      exact ih seen r hr
    · rw [uniqByGo, if_neg hc] at hr
      rcases List.mem_cons.mp hr with h | h
      · subst h
        push_neg at hc
        exact ⟨hc.1, hc.2⟩
      · have h2 := ih _ r h
        exact ⟨h2.1, fun hmem => h2.2 (List.mem_cons_of_mem _ hmem)⟩

theorem uniqByGo_pairwise (f : BidRecord → Str) :
    ∀ (l : List BidRecord) (seen : List Str),
      (uniqByGo f l seen).Pairwise (fun a b => f a ≠ f b) := by
  intro l
  induction l with
  | nil => intro seen; simp [uniqByGo]
  | cons x xs ih =>
    intro seen
    by_cases hc : f x = [] ∨ f x ∈ seen
    · rw [uniqByGo, if_pos hc]
      exact ih seen
    · rw [uniqByGo, if_neg hc]
      refine List.Pairwise.cons ?_ (ih _)
      intro b hb heq
      have h2 := uniqByGo_mem f xs (f x :: seen) b hb
      apply h2.2
      rw [← heq]
      exact List.mem_cons_self _ _

theorem uniqByGo_complete (f : BidRecord → Str) :
    ∀ (l : List BidRecord) (seen : List Str) (r : BidRecord), r ∈ l → f r ≠ [] →
      f r ∈ seen ∨ ∃ q, q ∈ uniqByGo f l seen ∧ f q = f r := by
  intro l
  induction l with
  | nil => intro seen r hr; simp at hr
  | cons x xs ih =>
    intro seen r hr hne
    by_cases hc : f x = [] ∨ f x ∈ seen
    · rw [uniqByGo, if_pos hc]
      rcases List.mem_cons.mp hr with h | h
      · subst h
        rcases hc with h1 | h1
        · exact absurd h1 hne
        · exact Or.inl h1
      · exact ih seen r h hne
    · rw [uniqByGo, if_neg hc]
      rcases List.mem_cons.mp hr with h | h
      · subst h
        exact Or.inr ⟨r, List.mem_cons_self _ _, rfl⟩
      · rcases ih (f x :: seen) r h hne with hmem | ⟨q, hq, hfq⟩
        · rcases List.mem_cons.mp hmem with h1 | h1
          · exact Or.inr ⟨x, List.mem_cons_self _ _, h1.symm⟩
          · exact Or.inl h1
        · exact Or.inr ⟨q, List.mem_cons_of_mem _ hq, hfq⟩

theorem uniqByGo_first (f : BidRecord → Str) :
    ∀ (l : List BidRecord) (seen : List Str) (r : BidRecord),
      r ∈ uniqByGo f l seen →
      l.find? (fun x => decide (f x = f r)) = some r := by
  intro l
  induction l with
  | nil => intro seen r hr; simp [uniqByGo] at hr
  | cons x xs ih =>
    intro seen r hr
    by_cases hc : f x = [] ∨ f x ∈ seen
    · rw [uniqByGo, if_pos hc] at hr
      have hmem := uniqByGo_mem f xs seen r hr
      have hne : f x ≠ f r := by
        intro heq
        rcases hc with h1 | h1
        · exact hmem.1 (heq ▸ h1)
        · exact hmem.2 (heq ▸ h1)
      rw [List.find?_cons_of_neg _ (by simp [hne])]
      exact ih seen r hr
    · rw [uniqByGo, if_neg hc] at hr
      rcases List.mem_cons.mp hr with h | h
      · subst h
        rw [List.find?_cons_of_pos _ (by simp)]
      · have hmem := uniqByGo_mem f xs (f x :: seen) r h
        have hne : f x ≠ f r := by
          intro heq
          apply hmem.2
          rw [← heq]
          exact List.mem_cons_self _ _
        rw [List.find?_cons_of_neg _ (by simp [hne])]
        exact ih _ r h

theorem uniqByGo_fixed (f : BidRecord → Str) :
    ∀ (m : List BidRecord) (seen : List Str),
      (∀ r ∈ m, f r ≠ [] ∧ f r ∉ seen) → m.Pairwise (fun a b => f a ≠ f b) →
      uniqByGo f m seen = m := by
  intro m
  induction m with
  | nil => intro seen _ _; rfl
  | cons x xs ih =>
    intro seen hmem hpw
    have hx := hmem x (List.mem_cons_self _ _)
    have hc : ¬ (f x = [] ∨ f x ∈ seen) := by push_neg; exact hx
    rw [uniqByGo, if_neg hc]
    have hpw2 := List.pairwise_cons.mp hpw
    congr 1
    apply ih
    · intro r hr
      have h1 := hmem r (List.mem_cons_of_mem _ hr)
      refine ⟨h1.1, fun hin => ?_⟩
      rcases List.mem_cons.mp hin with h2 | h2
      · exact hpw2.1 r hr h2.symm
      · exact h1.2 h2
    · exact hpw2.2

/-! ## Claims -/

/-- Claim C6: for every ordered list of header labels and every alias list,
`findCol` returns `-1` when no normalized lowercase header contains any
alias, and otherwise the index of the earliest header containing any
alias. -/
theorem findCol_earliest_or_neg_one (headers aliases : List Str) :
    ((∀ h ∈ headers.map lower, ∀ a ∈ aliases, containsSub h a = false) →
      findCol (headers.map lower) aliases = -1) ∧
    (∀ i, i < headers.length →
      (∃ a ∈ aliases, containsSub ((headers.map lower).getD i []) a = true) →
      (∀ j, j < i → ∀ a ∈ aliases, containsSub ((headers.map lower).getD j []) a = false) →
      findCol (headers.map lower) aliases = (i : Int)) := by
  constructor
  · intro hnone
    apply jsFindIndex_eq_neg_one
    intro h hh
    rw [List.any_eq_false]
    intro a ha
    simp [hnone h hh a ha]
  · intro i hi hex hbef
    apply jsFindIndex_first []
    · simpa using hi
    · obtain ⟨a, ha, hc⟩ := hex
      exact List.any_eq_true.mpr ⟨a, ha, hc⟩
    · intro j hj
      rw [List.any_eq_false]
      intro a ha hcontra
      rw [hbef j hj a ha] at hcontra
      exact Bool.false_ne_true hcontra

/-- Witness for C6: the specification test case, headers
`Bid #`, `Title`, `Open Date` with aliases `bid`, `#`, resolves to
column 0. -/
theorem findCol_earliest_or_neg_one_witness :
    findCol ([strL "Bid #", strL "Title", strL "Open Date"].map lower)
      [strL "bid", strL "#"] = (0 : Int) :=
  (findCol_earliest_or_neg_one [strL "Bid #", strL "Title", strL "Open Date"]
      [strL "bid", strL "#"]).2 0 (by decide)
    ⟨strL "bid", by decide, by decide⟩
    (fun j hj => absurd hj (Nat.not_lt_zero j))

/-- Claim C7: the row extractor is total, and a field whose resolved column
index is `-1` (or any negative value) or out of bounds for the cell list
of the row yields the empty string; in particular rows shorter than the
largest mapped index produce empty strings, never an error. -/
theorem row_extractor_oob_empty (c : ColIdx) (id : Str) (tds : List Str) :
    (∀ i : Int, ¬ cellInBounds tds i → getCell tds i = []) ∧
    (¬ cellInBounds tds c.contract_number → (buildRecord c id tds).contract_number = []) ∧
    (¬ cellInBounds tds c.contract_title → (buildRecord c id tds).contract_title = []) ∧
    (¬ cellInBounds tds c.open_date → (buildRecord c id tds).open_date = []) ∧
    (¬ cellInBounds tds c.deadline_date → (buildRecord c id tds).deadline_date = []) ∧
    (¬ cellInBounds tds c.agency_code → (buildRecord c id tds).agency_code = []) ∧
    (¬ cellInBounds tds c.unspc → (buildRecord c id tds).unspc = []) := by
  have hgen : ∀ i : Int, ¬ cellInBounds tds i → getCell tds i = [] := by
    intro i hni
    unfold getCell
    by_cases h0 : (0 : Int) ≤ i
    · rw [if_pos h0]
      apply List.getD_eq_default
      by_contra hlt
      exact hni ⟨h0, by omega⟩
    · rw [if_neg h0]
  exact ⟨hgen, fun h => hgen _ h, fun h => hgen _ h, fun h => hgen _ h,
    fun h => hgen _ h, fun h => hgen _ h, fun h => hgen _ h⟩

/-- Column mapping used by the C7 and C8 witnesses: four positional
fields, a `-1` sentinel, and one index past a two-cell row. -/
def cW : ColIdx :=
  { contract_number := 0, contract_title := 1, open_date := 2,
    deadline_date := 3, agency_code := -1, unspc := 4 }

/-- Two-cell row used by the C7 and C8 witnesses. -/
def tdsW : List Str := [strL "A", strL "B"]

/-- Witness for C7: the specification test case, a two-cell row against a
mapping expecting four positional fields, yields empty strings for the
missing cells and for the `-1` sentinel. -/
theorem row_extractor_oob_empty_witness :
    (buildRecord cW (strL "r1") tdsW).open_date = [] ∧
    (buildRecord cW (strL "r1") tdsW).deadline_date = [] ∧
    (buildRecord cW (strL "r1") tdsW).agency_code = [] ∧
    (buildRecord cW (strL "r1") tdsW).unspc = [] := by
  have h := row_extractor_oob_empty cW (strL "r1") tdsW
  exact ⟨h.2.2.2.1 (by decide), h.2.2.2.2.1 (by decide),
    h.2.2.2.2.2.1 (by decide), h.2.2.2.2.2.2 (by decide)⟩

/-- Claim C8: the derived detail link is the fixed URL template applied to
the opaque row identifier; an empty identifier yields the empty-string
absence marker, which is exactly the null of the specification under the
option view of the field. -/
theorem row_detail_link (c : ColIdx) (id : Str) (tds : List Str) :
    (id ≠ [] → (buildRecord c id tds).bookmarkable_link_url = bidDetailTemplate id) ∧
    (id = [] → (buildRecord c id tds).bookmarkable_link_url = []) ∧
    strToOption (buildRecord c id tds).bookmarkable_link_url = detailLinkSpec id := by
  by_cases h : id = []
  · refine ⟨fun hne => absurd h hne, fun _ => ?_, ?_⟩
    · simp [buildRecord, h]
    · simp [buildRecord, strToOption, detailLinkSpec, h]
  · have hlink : (buildRecord c id tds).bookmarkable_link_url = bidDetailTemplate id := by
      simp [buildRecord, h]
    have hne : bidDetailTemplate id ≠ [] := by
      intro hcontra
      unfold bidDetailTemplate at hcontra
      have h1 := (List.append_eq_nil.mp hcontra).1
      exact absurd h1 (by decide)
    refine ⟨fun _ => hlink, fun he => absurd he h, ?_⟩
    rw [hlink]
    simp [strToOption, detailLinkSpec, h, hne]

/-- Witness for C8: a non-empty identifier produces the templated link, and
the empty identifier produces the absence marker refining null. -/
theorem row_detail_link_witness :
    (buildRecord cW (strL "42") tdsW).bookmarkable_link_url = bidDetailTemplate (strL "42") ∧
    strToOption (buildRecord cW [] tdsW).bookmarkable_link_url = detailLinkSpec [] :=
  ⟨(row_detail_link cW (strL "42") tdsW).1 (by decide),
   (row_detail_link cW [] tdsW).2.2⟩

/-- Claim C9: the final global dedup pass is idempotent; applied to a list
it has already produced, it returns that list unchanged in order and
content. -/
theorem uniqBy_idempotent (l : List BidRecord) :
    uniqBy (uniqBy l finalKey) finalKey = uniqBy l finalKey := by
  unfold uniqBy
  apply uniqByGo_fixed
  · intro r hr
    exact uniqByGo_mem finalKey l [] r hr
  · exact uniqByGo_pairwise finalKey l []

/-- Claim C2 counterexample: on a record with empty link and empty contract
number but a non-empty title, the per-page key (which falls back to the
JSON serialization) differs from the final-pass key (which has no
structural fallback and is empty), and the final pass even drops the
record that the per-page pass keeps. -/
theorem final_dedup_key_differs_cex :
    perPageKey rT ≠ finalKey rT ∧
    uniqBy [rT] perPageKey = [rT] ∧
    uniqBy [rT] finalKey = [] :=
  ⟨by decide, rfl, rfl⟩

/-- Claim C2 amended: the final global pass keys on
`bookmarkable_link_url` falling back to `contract_number` only, with no
structural fallback; records whose key is empty are dropped; the
survivors appear in first-seen order with pairwise distinct keys, every
record with a non-empty key is represented in the output, and the
representative of each key is the FIRST occurrence of that key in the
input (each output record is what `find?` returns for its key). -/
theorem final_dedup_amended (l : List BidRecord) :
    List.Sublist (uniqBy l finalKey) l ∧
    (∀ r, r ∈ uniqBy l finalKey → finalKey r ≠ []) ∧
    (uniqBy l finalKey).Pairwise (fun a b => finalKey a ≠ finalKey b) ∧
    (∀ r, r ∈ l → finalKey r ≠ [] →
      ∃ q, q ∈ uniqBy l finalKey ∧ finalKey q = finalKey r) ∧
    (∀ r, r ∈ uniqBy l finalKey →
      l.find? (fun x => decide (finalKey x = finalKey r)) = some r) := by
  refine ⟨uniqByGo_subl finalKey l [], ?_, uniqByGo_pairwise finalKey l [], ?_, ?_⟩
  · intro r hr
    exact (uniqByGo_mem finalKey l [] r hr).1
  · intro r hrl hne
    rcases uniqByGo_complete finalKey l [] r hrl hne with h | h
    · simp at h
    · exact h
  · intro r hr
    exact uniqByGo_first finalKey l [] r hr

/-- Witness for the amended C2 on a concrete list with a duplicated final
key: the output is a first-seen-order sublist, the surviving record has a
non-empty key, and the survivor for the duplicated key is the first
occurrence (`recX`, not the later `recX2` sharing its key). -/
theorem final_dedup_amended_witness :
    List.Sublist (uniqBy [recX, recX2] finalKey) [recX, recX2] ∧
    finalKey recX ≠ [] ∧
    ([recX, recX2].find? (fun x => decide (finalKey x = finalKey recX)) = some recX) := by
  have h := final_dedup_amended [recX, recX2]
  exact ⟨h.1, h.2.1 recX (by decide), h.2.2.2.2 recX (by decide)⟩

/-- Page state that never changes: next control present and enabled, first
row with id `row1` and fixed text, pager input fixed at `1`. -/
def stuckState : PageState :=
  { nextPresent := true, nextDisabled := false,
    firstRow := some (strL "row1", strL "Alpha Contract"), pgInput := some (strL "1") }

/-- Constant trajectory on `stuckState`: no pagination signal ever
changes. -/
def stuckTraj : Nat → PageState := fun _ => stuckState

/-- Claim C5, code bug: on a trajectory whose signature never changes
after the click, `findAndClickNext` still reports success immediately
instead of failing with a stall, because the captured `before` value is a
plain string whose `firstRowId`, `firstRowText` and `pageNum` properties
are all undefined, making the strict inequalities vacuously true for any
present signal.  The second conjunct records that the trajectory is
constant, so no signature component ever differs from the captured
one. -/
theorem advance_success_without_change :
    findAndClickNext stuckTraj 3 = Except.ok true ∧
    (∀ t : Nat, stuckTraj t = stuckTraj 1) ∧
    (∀ t : Nat, waitPred (JsVal.vstr (trimWs (strL "Alpha Contract"))) (stuckTraj t) = true) :=
  ⟨rfl, fun _ => rfl, fun _ => rfl⟩

/-- Page state with the next control present and enabled but no rows and
no pager input: after a click, every pagination signal stays absent, the
only situation in which the buggy wait predicate can time out. -/
def stallState : PageState :=
  { nextPresent := true, nextDisabled := false, firstRow := none, pgInput := none }

/-- Constant stalled trajectory. -/
def stallTraj : Nat → PageState := fun _ => stallState

/-- Single-record page stream used by the C1 counterexample. -/
def scrapes1 : Nat → List BidRecord := fun _ => [recX]

/-- Pagination oracle that stalls (the wait rejects) on every page. -/
def nexts1 : Nat → Except Unit Bool := fun _ => Except.error ()

/-- Claim C1 counterexample: when the pagination wait times out, the walk
does not terminate normally with the collected records; the rejection
propagates and the walk aborts.  The first conjunct evaluates the walk on
a concrete one-page run whose advance stalls, the second states that no
record list is returned, and the third checks that the embedded
`findAndClickNext` really rejects on a stalled trajectory. -/
theorem walk_stall_aborts_cex :
    walkRun scrapes1 nexts1 amNone 300 5000 = Except.error () ∧
    (∀ l : List BidRecord, walkRun scrapes1 nexts1 amNone 300 5000 ≠ Except.ok l) ∧
    findAndClickNext stallTraj 3 = Except.error () := by
  refine ⟨rfl, ?_, rfl⟩
  intro l h
  rw [(rfl : walkRun scrapes1 nexts1 amNone 300 5000 = Except.error ())] at h
  exact Except.noConfusion h

/-- Claim C1 amended: a `PaginationStalled` timeout is not recovered; the
exception propagates out of the page loop, so the walk aborts with the
error and the collected records are discarded.  Stated for any page
stream whose first advance stalls before the item cap is reached. -/
theorem walk_stall_propagates (scrapes : Nat → List BidRecord)
    (nexts : Nat → Except Unit Bool) (am : Str → Option Str) (mp mi : Nat)
    (hmp : 1 ≤ mp) (hn : nexts 1 = Except.error ())
    (hlen : (addRows am [] [] ((scrapes 1).map normalizeRec)).2.length < mi) :
    walkRun scrapes nexts am mp mi = Except.error () := by
  obtain ⟨k, rfl⟩ : ∃ k, mp = k + 1 := ⟨mp - 1, by omega⟩
  have h1 : walkGo scrapes nexts am mi (k + 1) 1 [] [] = Except.error () := by
    rw [walkGo, if_neg (Nat.not_le.mpr hlen), hn]
  unfold walkRun
  rw [h1]
  rfl

/-- Witness for the amended C1 at a concrete stalled run. -/
theorem walk_stall_propagates_witness :
    walkRun scrapes1 nexts1 amNone 2 10 = Except.error () :=
  walk_stall_propagates scrapes1 nexts1 amNone 2 10 (by decide) rfl (by decide)

/-- Three-record page stream used by the C10 demonstration. -/
def scrapes10 : Nat → List BidRecord := fun _ => [recX, recY, recZ]

/-- Pagination oracle reporting no further pages. -/
def nexts10 : Nat → Except Unit Bool := fun _ => Except.ok false

/-- Claim C10: the walk can return more than `maxItems` records, because a
full page is appended before the cutoff check and the excess is never
truncated.  The first conjunct evaluates a concrete run with
`maxItems = 2` and a three-row page, producing three records; the second
bounds the excess by one page of rows: when every scraped page has at
most `B` rows, the output length is at most `maxItems - 1 + B`. -/
theorem walk_can_exceed_maxItems :
    (Except.map List.length (walkRun scrapes10 nexts10 amNone 300 2) = Except.ok 3 ∧ 2 < 3) ∧
    (∀ (scrapes : Nat → List BidRecord) (nexts : Nat → Except Unit Bool)
      (am : Str → Option Str) (mp mi B : Nat), 1 ≤ mi →
      (∀ p, (scrapes p).length ≤ B) →
      ∀ l, walkRun scrapes nexts am mp mi = Except.ok l → l.length ≤ (mi - 1) + B) := by
  constructor
  · exact ⟨rfl, by omega⟩
  · intro scrapes nexts am mp mi B hmi hB l hrun
    have hstep : ∀ (st : List Str × List BidRecord) (r : BidRecord),
        (addRow am st r).2.length ≤ st.2.length + 1 := by
      intro st r
      unfold addRow
      by_cases hk : perPageKey r ∈ st.1
      · rw [if_pos hk]; omega
      · rw [if_neg hk]; simp
    have haddlen : ∀ (rows : List BidRecord) (seen : List Str) (acc : List BidRecord),
        (addRows am seen acc rows).2.length ≤ acc.length + rows.length := by
      intro rows
      induction rows with
      | nil => intro seen acc; simp [addRows]
      | cons r rest ih =>
        intro seen acc
        have h3 : addRows am seen acc (r :: rest) =
            addRows am (addRow am (seen, acc) r).1 (addRow am (seen, acc) r).2 rest := rfl
        have h2 := ih (addRow am (seen, acc) r).1 (addRow am (seen, acc) r).2
        have h1 : (addRow am (seen, acc) r).2.length ≤ acc.length + 1 := hstep (seen, acc) r
        rw [h3]
        simp only [List.length_cons]
        omega
    have hgo : ∀ (fuel p : Nat) (seen : List Str) (acc : List BidRecord),
        acc.length + 1 ≤ mi →
        ∀ l2, walkGo scrapes nexts am mi fuel p seen acc = Except.ok l2 →
        l2.length ≤ (mi - 1) + B := by
      intro fuel
      induction fuel with
      | zero =>
        intro p seen acc hacc l2 h
        rw [walkGo] at h
        cases h
        omega
      | succ k ih =>
        intro p seen acc hacc l2 h
        rw [walkGo] at h
        have hrows : ((scrapes p).map normalizeRec).length ≤ B := by
          rw [List.length_map]; exact hB p
        have hlen2 : (addRows am seen acc ((scrapes p).map normalizeRec)).2.length ≤
            acc.length + B := le_trans (haddlen _ _ _) (by omega)
        by_cases hcut : mi ≤ (addRows am seen acc ((scrapes p).map normalizeRec)).2.length
        · rw [if_pos hcut] at h
          cases h
          omega
        · rw [if_neg hcut] at h
          cases hnx : nexts p with
          | error e => rw [hnx] at h; exact Except.noConfusion h
          | ok b =>
            rw [hnx] at h
            cases b with
            | false =>
              cases h
              omega
            | true =>
              exact ih (p + 1) _ _ (by omega) l2 h
    unfold walkRun at hrun
    cases hgo2 : walkGo scrapes nexts am mi mp 1 [] [] with
    | error e => rw [hgo2] at hrun; exact Except.noConfusion hrun
    | ok all =>
      rw [hgo2] at hrun
      have hl : l = uniqBy all finalKey := by
        simpa [Except.map] using hrun.symm
      have hall : all.length ≤ (mi - 1) + B := hgo mp 1 [] [] (by simpa using hmi) all hgo2
      have hsub : List.Sublist (uniqBy all finalKey) all := uniqByGo_subl finalKey all []
      rw [hl]
      exact le_trans hsub.length_le hall

/-- Witness for C10 applying the page-bound part at the concrete
three-row run. -/
theorem walk_can_exceed_maxItems_witness :
    ([recX, recY, recZ] : List BidRecord).length ≤ (2 - 1) + 3 :=
  walk_can_exceed_maxItems.2 scrapes10 nexts10 amNone 300 2 3 (by omega)
    (fun _ => Nat.le.refl) [recX, recY, recZ] rfl

/-! ## Pool invariant -/

/-- Inductive invariant of the worker pool: the cursor is bounded by the
input length, the claim log is exactly the range of the cursor (hence each
index is claimed exactly once), every claimed index is either held by a
unique working worker or already written with its enrichment, slots past
the cursor are empty, and a worker can only have exited once the cursor
reached the end. -/
structure PoolInv (all : List BidRecord) (f : BidRecord → BidRecord) (C : Nat)
    (s : PoolState) : Prop where
  idx_le : s.idx ≤ all.length
  ws_len : s.ws.length = C
  out_len : s.out.length = all.length
  claims_eq : s.claims = List.range s.idx
  working_lt : ∀ w i, s.ws.getD w WStatus.done = WStatus.working i → i < s.idx
  working_uniq : ∀ w₁ w₂ i, s.ws.getD w₁ WStatus.done = WStatus.working i →
    s.ws.getD w₂ WStatus.done = WStatus.working i → w₁ = w₂
  out_done : ∀ i, i < s.idx →
    (∃ w, w < s.ws.length ∧ s.ws.getD w WStatus.done = WStatus.working i) ∨
    s.out.getD i none = some (f (all.getD i dfltRec))
  out_hi : ∀ i, s.idx ≤ i → s.out.getD i none = none
  done_idx : ∀ w, w < s.ws.length → s.ws.getD w WStatus.done = WStatus.done →
    all.length ≤ s.idx

theorem poolInv_init (all : List BidRecord) (f : BidRecord → BidRecord) (C : Nat) :
    PoolInv all f C (initPool all.length C) := by
  have hnw : ∀ w i, (List.replicate C WStatus.idle).getD w WStatus.done ≠ WStatus.working i := by
    intro w i h
    by_cases hw : w < C
    · rw [getD_replicate_lt _ _ _ _ hw] at h
      exact WStatus.noConfusion h
    · rw [List.getD_eq_default _ _ (by rw [List.length_replicate]; omega)] at h
      exact WStatus.noConfusion h
  unfold initPool
  refine ⟨?_, ?_, ?_, ?_, ?_, ?_, ?_, ?_, ?_⟩ <;> dsimp only
  · exact Nat.zero_le _
  · exact List.length_replicate _ _
  · exact List.length_replicate _ _
  · rfl
  · intro w i h
    exact absurd h (hnw w i)
  · intro w₁ w₂ i h₁ _
    exact absurd h₁ (hnw w₁ i)
  · intro i hi
    exact absurd hi (Nat.not_lt_zero i)
  · intro i _
    by_cases hi : i < all.length
    · exact getD_replicate_lt _ _ _ _ hi
    · exact List.getD_eq_default _ _ (by rw [List.length_replicate]; omega)
  · intro w hw hdone
    rw [List.length_replicate] at hw
    rw [getD_replicate_lt _ _ _ _ hw] at hdone
    exact absurd hdone (by simp)

theorem poolInv_step {all : List BidRecord} {f : BidRecord → BidRecord} {C : Nat}
    {s s' : PoolState} (hst : PoolStep all f s s') (hinv : PoolInv all f C s) :
    PoolInv all f C s' := by
  cases hst with
  | claim w hw hwlt hidx =>
    refine ⟨?_, ?_, ?_, ?_, ?_, ?_, ?_, ?_, ?_⟩ <;> dsimp only
    · omega
    · rw [List.length_set]
      exact hinv.ws_len
    · exact hinv.out_len
    · rw [hinv.claims_eq, List.range_succ]
    · intro w' i' h'
      by_cases hww : w' = w
      · subst hww
        rw [getD_set_self _ _ _ _ hwlt] at h'
        cases h'
        omega
      · rw [getD_set_ne _ _ _ _ _ (fun h => hww h.symm)] at h'
        have := hinv.working_lt w' i' h'
        omega
    · intro w₁ w₂ i' h₁ h₂
      by_cases h1w : w₁ = w <;> by_cases h2w : w₂ = w
      · rw [h1w, h2w]
      · subst h1w
        rw [getD_set_self _ _ _ _ hwlt] at h₁
        cases h₁
        rw [getD_set_ne _ _ _ _ _ (fun h => h2w h.symm)] at h₂
        have := hinv.working_lt w₂ _ h₂
        omega
      · subst h2w
        rw [getD_set_self _ _ _ _ hwlt] at h₂
        cases h₂
        rw [getD_set_ne _ _ _ _ _ (fun h => h1w h.symm)] at h₁
        have := hinv.working_lt w₁ _ h₁
        omega
      · rw [getD_set_ne _ _ _ _ _ (fun h => h1w h.symm)] at h₁
        rw [getD_set_ne _ _ _ _ _ (fun h => h2w h.symm)] at h₂
        exact hinv.working_uniq w₁ w₂ i' h₁ h₂
    · intro i' hi'
      by_cases hieq : i' = s.idx
      · subst hieq
        exact Or.inl ⟨w, by rw [List.length_set]; exact hwlt,
          by rw [getD_set_self _ _ _ _ hwlt]⟩
      · rcases hinv.out_done i' (by omega) with ⟨w', hwl', hw'⟩ | hout
        · have hww' : w' ≠ w := by
            intro h
            subst h
            rw [hw] at hw'
            exact WStatus.noConfusion hw'
          exact Or.inl ⟨w', by rw [List.length_set]; exact hwl',
            by rw [getD_set_ne _ _ _ _ _ (fun h => hww' h.symm)]; exact hw'⟩
        · exact Or.inr hout
    · intro i' h'
      exact hinv.out_hi i' (by omega)
    · intro w' hwl' hdone'
      by_cases hww : w' = w
      · subst hww
        rw [getD_set_self _ _ _ _ hwlt] at hdone'
        exact WStatus.noConfusion hdone'
      · rw [getD_set_ne _ _ _ _ _ (fun h => hww h.symm)] at hdone'
        rw [List.length_set] at hwl'
        have := hinv.done_idx w' hwl' hdone'
        omega
  | finish w i hw hwlt =>
    have hi_lt : i < s.idx := hinv.working_lt w i hw
    have hi_len : i < all.length := lt_of_lt_of_le hi_lt hinv.idx_le
    have hi_out : i < s.out.length := by rw [hinv.out_len]; exact hi_len
    refine ⟨?_, ?_, ?_, ?_, ?_, ?_, ?_, ?_, ?_⟩ <;> dsimp only
    · exact hinv.idx_le
    · rw [List.length_set]
      exact hinv.ws_len
    · rw [List.length_set]
      exact hinv.out_len
    · exact hinv.claims_eq
    · intro w' i' h'
      by_cases hww : w' = w
      · subst hww
        rw [getD_set_self _ _ _ _ hwlt] at h'
        exact WStatus.noConfusion h'
      · rw [getD_set_ne _ _ _ _ _ (fun h => hww h.symm)] at h'
        exact hinv.working_lt w' i' h'
    · intro w₁ w₂ i' h₁ h₂
      by_cases h1w : w₁ = w
      · subst h1w
        rw [getD_set_self _ _ _ _ hwlt] at h₁
        exact WStatus.noConfusion h₁
      · by_cases h2w : w₂ = w
        · subst h2w
          rw [getD_set_self _ _ _ _ hwlt] at h₂
          exact WStatus.noConfusion h₂
        · rw [getD_set_ne _ _ _ _ _ (fun h => h1w h.symm)] at h₁
          rw [getD_set_ne _ _ _ _ _ (fun h => h2w h.symm)] at h₂
          exact hinv.working_uniq w₁ w₂ i' h₁ h₂
    · intro j hj
      by_cases hji : j = i
      · subst hji
        exact Or.inr (by rw [getD_set_self _ _ _ _ hi_out])
      · rcases hinv.out_done j hj with ⟨w', hwl', hw'⟩ | hout
        · have hww' : w' ≠ w := by
            intro h
            subst h
            rw [hw] at hw'
            cases hw'
            exact hji rfl
          exact Or.inl ⟨w', by rw [List.length_set]; exact hwl',
            by rw [getD_set_ne _ _ _ _ _ (fun h => hww' h.symm)]; exact hw'⟩
        · exact Or.inr (by rw [getD_set_ne _ _ _ _ _ (fun h => hji h.symm)]; exact hout)
    · intro j hj
      have hji : i ≠ j := by omega
      rw [getD_set_ne _ _ _ _ _ hji]
      exact hinv.out_hi j hj
    · intro w' hwl' hdone'
      by_cases hww : w' = w
      · subst hww
        rw [getD_set_self _ _ _ _ hwlt] at hdone'
        exact WStatus.noConfusion hdone'
      · rw [getD_set_ne _ _ _ _ _ (fun h => hww h.symm)] at hdone'
        rw [List.length_set] at hwl'
        exact hinv.done_idx w' hwl' hdone'
  | exit w hw hwlt hidx =>
    refine ⟨?_, ?_, ?_, ?_, ?_, ?_, ?_, ?_, ?_⟩ <;> dsimp only
    · exact hinv.idx_le
    · rw [List.length_set]
      exact hinv.ws_len
    · exact hinv.out_len
    · exact hinv.claims_eq
    · intro w' i' h'
      by_cases hww : w' = w
      · subst hww
        rw [getD_set_self _ _ _ _ hwlt] at h'
        exact WStatus.noConfusion h'
      · rw [getD_set_ne _ _ _ _ _ (fun h => hww h.symm)] at h'
        exact hinv.working_lt w' i' h'
    · intro w₁ w₂ i' h₁ h₂
      by_cases h1w : w₁ = w
      · subst h1w
        rw [getD_set_self _ _ _ _ hwlt] at h₁
        exact WStatus.noConfusion h₁
      · by_cases h2w : w₂ = w
        · subst h2w
          rw [getD_set_self _ _ _ _ hwlt] at h₂
          exact WStatus.noConfusion h₂
        · rw [getD_set_ne _ _ _ _ _ (fun h => h1w h.symm)] at h₁
          rw [getD_set_ne _ _ _ _ _ (fun h => h2w h.symm)] at h₂
          exact hinv.working_uniq w₁ w₂ i' h₁ h₂
    · intro j hj
      rcases hinv.out_done j hj with ⟨w', hwl', hw'⟩ | hout
      · have hww' : w' ≠ w := by
          intro h
          subst h
          rw [hw] at hw'
          exact WStatus.noConfusion hw'
        exact Or.inl ⟨w', by rw [List.length_set]; exact hwl',
          by rw [getD_set_ne _ _ _ _ _ (fun h => hww' h.symm)]; exact hw'⟩
      · exact Or.inr hout
    · exact hinv.out_hi
    · intro w' hwl' hdone'
      exact hidx

theorem poolInv_reach {all : List BidRecord} {f : BidRecord → BidRecord} {C : Nat}
    {s s' : PoolState} (h : PoolReach all f s s') (hinv : PoolInv all f C s) :
    PoolInv all f C s' := by
  induction h with
  | refl => exact hinv
  | tail _ hstep ih => exact poolInv_step hstep ih

/-- Outcome of any completed pool run: every slot holds the enrichment of
the input record at the same index, the claim log is exactly one claim per
index in cursor order, and the output has the length of the input. -/
theorem pool_final (all : List BidRecord) (f : BidRecord → BidRecord) (C : Nat)
    (s : PoolState) (hC : 1 ≤ C)
    (hreach : PoolReach all f (initPool all.length C) s) (hterm : Terminal s) :
    (∀ i, i < all.length → s.out.getD i none = some (f (all.getD i dfltRec))) ∧
    s.claims = List.range all.length ∧ s.claims.Nodup ∧ s.out.length = all.length := by
  have hinv := poolInv_reach hreach (poolInv_init all f C)
  have hws : s.ws.length = C := hinv.ws_len
  have hdone : s.ws.getD 0 WStatus.done = WStatus.done := hterm 0 (by omega)
  have hn : all.length ≤ s.idx := hinv.done_idx 0 (by omega) hdone
  have hidx : s.idx = all.length := le_antisymm hinv.idx_le hn
  refine ⟨?_, ?_, ?_, hinv.out_len⟩
  · intro i hi
    rcases hinv.out_done i (by omega) with ⟨w, hwl, hww⟩ | hout
    · rw [hterm w hwl] at hww
      exact WStatus.noConfusion hww
    · exact hout
  · rw [hinv.claims_eq, hidx]
  · rw [hinv.claims_eq]
    exact List.nodup_range _

/-- Claim C3: for every input list and every schedule of the worker pool,
the completed output holds at index `i` the enrichment of the input
record at index `i`, the claim log contains no index twice (no record is
processed by two workers), and the output length equals the input
length. -/
theorem detail_pool_index_preserving (all : List BidRecord) (f : BidRecord → BidRecord)
    (C : Nat) (s : PoolState) (hC : 1 ≤ C)
    (hreach : PoolReach all f (initPool all.length C) s) (hterm : Terminal s) :
    (∀ i, i < all.length → s.out.getD i none = some (f (all.getD i dfltRec))) ∧
    s.claims.Nodup ∧ s.out.length = all.length := by
  have h := pool_final all f C s hC hreach hterm
  exact ⟨h.1, h.2.2.1, h.2.2.2⟩

/-- Identity enrichment used by the C3 witness. -/
def idF : BidRecord → BidRecord := fun r => r

/-- Intermediate pool state after the single worker claims index 0. -/
def poolMid1 : PoolState :=
  { idx := 1, out := [none], ws := [WStatus.working 0], claims := [0] }

/-- Intermediate pool state after the write at index 0. -/
def poolMid2 : PoolState :=
  { idx := 1, out := [some recX], ws := [WStatus.idle], claims := [0] }

/-- Final pool state of the witness run. -/
def poolFin : PoolState :=
  { idx := 1, out := [some recX], ws := [WStatus.done], claims := [0] }

/-- Witness for C3: a concrete one-worker, one-record schedule reaching a
terminal state, to which the theorem applies. -/
theorem detail_pool_index_preserving_witness :
    poolFin.out.getD 0 none = some (idF ([recX].getD 0 dfltRec)) ∧
    poolFin.claims.Nodup := by
  have s1 : PoolStep [recX] idF (initPool 1 1) poolMid1 :=
    PoolStep.claim (initPool 1 1) 0 rfl (by decide) (by decide)
  have s2 : PoolStep [recX] idF poolMid1 poolMid2 :=
    PoolStep.finish poolMid1 0 0 rfl (by decide)
  have s3 : PoolStep [recX] idF poolMid2 poolFin :=
    PoolStep.exit poolMid2 0 rfl (by decide) (by decide)
  have hreach : PoolReach [recX] idF (initPool 1 1) poolFin :=
    Relation.ReflTransGen.head s1
      (Relation.ReflTransGen.head s2
        (Relation.ReflTransGen.head s3 Relation.ReflTransGen.refl))
  have hterm : Terminal poolFin := by
    unfold Terminal
    decide
  have h := detail_pool_index_preserving [recX] idF 1 poolFin (by decide) hreach hterm
  exact ⟨h.1 0 (by decide), h.2.1⟩

/-- Claim C4: an enrichment failure is caught per record: the record is
still emitted, unchanged except for the populated diagnostic field; and
under the worker pool every other record still completes, since every
output slot of any completed run holds the per-record enrichment
result. -/
theorem enrichment_failure_isolated (fetch : Str → Except Str DetailData)
    (base : BidRecord) (msg : Str) (hid : base.id ≠ [])
    (hf : fetch base.id = Except.error msg) :
    scrapeDetailsViaApi fetch base = { base with detail_error := some msg } ∧
    (∀ (all : List BidRecord) (C : Nat) (s : PoolState), 1 ≤ C →
      PoolReach all (scrapeDetailsViaApi fetch) (initPool all.length C) s → Terminal s →
      ∀ i, i < all.length →
        s.out.getD i none = some (scrapeDetailsViaApi fetch (all.getD i dfltRec))) := by
  constructor
  · unfold scrapeDetailsViaApi
    rw [if_neg hid, hf]
  · intro all C s hC hreach hterm
    exact (pool_final all (scrapeDetailsViaApi fetch) C s hC hreach hterm).1

/-- Always-failing detail oracle used by the C4 witness. -/
def fetchFail : Str → Except Str DetailData := fun _ => Except.error (strL "boom")

/-- Record with a non-empty identifier used by the C4 witness. -/
def baseB : BidRecord := { mkRec "D1" "Delta" "" with id := strL "77" }

/-- Witness for C4 at a concrete failing oracle: the record comes back
unchanged except for the diagnostic field. -/
theorem enrichment_failure_isolated_witness :
    scrapeDetailsViaApi fetchFail baseB = { baseB with detail_error := some (strL "boom") } :=
  (enrichment_failure_isolated fetchFail baseB (strL "boom") (by decide) rfl).1

end DeBids
